import Mathlib

/-!
Verification development for the Gemini Vision OCR application (`app.py`).

The file shallowly embeds the text post-processing and document-assembly
pipeline of the application:

* `clean_extracted_text` — the Markup Normalizer (app.py, `clean_extracted_text`),
  built from the three case-insensitive pair substitutions
  (`<u>…</u> → _…_`, `<b>…</b> → **…**`, `<i>…</i> → *…*`), the removal of
  remaining `<…>` tags, and the per-line re-indentation pass;
* `create_prompt` — the Prompt Builder;
* `create_formatted_document` — the Document Assembler (content blocks only;
  page geometry, fonts and the page-number field carry no text content
  relevant to the claims and are not modelled);
* `delete_document` — the Document Store Gateway's delete operation.

Strings are modelled as `List Char`.  Python's regular-expression calls are
modelled by executable scanners that follow `re.sub` semantics for the
patterns actually used (leftmost match, one-character advance on failure,
non-greedy body for the pair patterns with `.` not matching a newline,
greedy `[^>]+` for the tag-removal pattern).  Recursions that skip past a
matched region use an explicit fuel argument equal to the input length so
that every definition evaluates by kernel reduction.
-/

/-- Python whitespace characters that can occur inside a single line
(`str.strip` / `str.lstrip` with no argument; `'\n'` never occurs inside a
line after `split('\n')`). -/
def isPyWs (c : Char) : Bool :=
  c = ' ' || c = '\t' || c = '\r' || c = '\x0b' || c = '\x0c'

/-- Scan for the first `'>'` and return the suffix after it
(the continuation of a `<[^>]+>` match whose interior has already begun). -/
def findCloseAux : List Char → Option (List Char)
  | [] => none
  | c :: rest => if c = '>' then some rest else findCloseAux rest

/-- Given the text immediately after a `'<'`, return `some r` when
`[^>]+>` matches here (Python pattern `<[^>]+>`), with `r` the text after
the match; `none` when it does not match at this position. -/
def findClose : List Char → Option (List Char)
  | [] => none
  | c :: rest => if c = '>' then none else findCloseAux rest

/-- One pass of `re.sub(r'<[^>]+>', '', text)`: delete every match of
`<[^>]+>`, scanning left to right.  `fuel` bounds the recursion; it is
instantiated with the input length. -/
def stripTagsFuel : Nat → List Char → List Char
  | 0, l => l
  | _ + 1, [] => []
  | n + 1, c :: rest =>
    if c = '<' then
      match findClose rest with
      | some r2 => stripTagsFuel n r2
      | none => c :: stripTagsFuel n rest
    else c :: stripTagsFuel n rest

/-- The call `re.sub(r'<[^>]+>', '', text)` (app.py line 704). -/
def stripTags (l : List Char) : List Char := stripTagsFuel l.length l

/-- Does the text start with an opening tag `<t>` (case-insensitive in the
tag letter, as under `re.IGNORECASE`)? -/
def isOpenAt (t : Char) : List Char → Bool
  | c0 :: c1 :: c2 :: _ => c0 = '<' && c2 = '>' && c1.toLower = t
  | _ => false

/-- Does the text start with a closing tag `</t>` (case-insensitive)? -/
def isCloseAt (t : Char) : List Char → Bool
  | c0 :: c1 :: c2 :: c3 :: _ => c0 = '<' && c1 = '/' && c3 = '>' && c2.toLower = t
  | _ => false

/-- Non-greedy body search for `(.*?)</t>` starting right after an opening
tag: return the shortest newline-free body followed by `</t>`, together
with the text after the closing tag; `none` when a newline (or the end of
the text) is reached first — `.` does not match `'\n'` without `re.DOTALL`. -/
def findBody (t : Char) : List Char → Option (List Char × List Char)
  | [] => none
  | c :: rest =>
    if isCloseAt t (c :: rest) then some ([], rest.drop 3)
    else if c = '\n' then none
    else
      match findBody t rest with
      | some (b, r) => some (c :: b, r)
      | none => none

/-- One pass of `re.sub(r'<t>(.*?)</t>', wrap + body + wrap, text,
flags=re.IGNORECASE)`: scan left to right, replace each leftmost-shortest
pair match, and continue after the match (the replacement is not
rescanned).  `fuel` bounds the recursion. -/
def subPairFuel (t : Char) (w : List Char) : Nat → List Char → List Char
  | 0, l => l
  | _ + 1, [] => []
  | n + 1, c :: rest =>
    if isOpenAt t (c :: rest) then
      match findBody t (rest.drop 2) with
      | some (b, r) => w ++ b ++ w ++ subPairFuel t w n r
      | none => c :: subPairFuel t w n rest
    else c :: subPairFuel t w n rest

/-- The pair substitution for tag letter `t` with wrapper `w`
(app.py lines 699–701). -/
def subTagPair (t : Char) (w : List Char) (l : List Char) : List Char :=
  subPairFuel t w l.length l

/-- The whole tag-processing stage of `clean_extracted_text`
(app.py lines 698–704): the three pair substitutions in source order,
then removal of the remaining tags. -/
def tagPhase (l : List Char) : List Char :=
  stripTags (subTagPair 'i' ['*'] (subTagPair 'b' ['*', '*'] (subTagPair 'u' ['_'] l)))

/-- Python `text.split('\n')` (splitting the empty string gives
one empty line). -/
def splitLines : List Char → List (List Char)
  | [] => [[]]
  | c :: rest =>
    if c = '\n' then [] :: splitLines rest
    else
      match splitLines rest with
      | [] => [[c]]
      | h :: t => (c :: h) :: t

/-- Python `'\n'.join(lines)`. -/
def joinLines : List (List Char) → List Char
  | [] => []
  | [l] => l
  | l :: ls => l ++ '\n' :: joinLines ls

/-- Python `len(line) - len(line.lstrip())`: the length of the leading whitespace
run of a line. -/
def leadWs (l : List Char) : Nat := (l.takeWhile isPyWs).length

/-- Remove trailing whitespace. -/
def dropTrailWs (l : List Char) : List Char :=
  (l.reverse.dropWhile isPyWs).reverse

/-- Python `line.strip()`. -/
def trimLine (l : List Char) : List Char :=
  dropTrailWs (l.dropWhile isPyWs)

/-- The per-line step of `clean_extracted_text` (app.py lines 710–716):
an all-whitespace line becomes empty; otherwise the line becomes
`leading-whitespace-count` spaces followed by the stripped content. -/
def normalizeLine (l : List Char) : List Char :=
  let content := trimLine l
  if content = [] then [] else List.replicate (leadWs l) ' ' ++ content

/-- The line-processing stage of `clean_extracted_text`
(app.py lines 707–718). -/
def lineFix (l : List Char) : List Char :=
  joinLines ((splitLines l).map normalizeLine)

/-- The function `clean_extracted_text` (app.py lines 691–718): empty input is returned
unchanged; otherwise the tag-processing stage runs on the whole string,
then the line-processing stage. -/
def clean_extracted_text (text : List Char) : List Char :=
  if text = [] then text else lineFix (tagPhase text)

-- Sanity checks against hand-evaluated Python behaviour.
example : clean_extracted_text "<u>a</u> <b>c</b> <i>e</i>".data = "_a_ **c** *e*".data := by decide
example : clean_extracted_text "<u>a\nb</u>".data = "a\nb".data := by decide
example : clean_extracted_text "   ".data = [] := by decide
example : clean_extracted_text "  \thello  \n<span>x</span>".data = "   hello\nx".data := by decide
example : clean_extracted_text "<U>Mixed</u> a<b".data = "_Mixed_ a<b".data := by decide
example : clean_extracted_text "<b><b>x</b></b>".data = "**x**".data := by decide
example : clean_extracted_text "<u>a<u>b</u>c</u>".data = "_ab_c".data := by decide
example : clean_extracted_text "<>a>b".data = "<>a>b".data := by decide
example : clean_extracted_text "<<a>".data = [] := by decide
example : clean_extracted_text "<u>a<b</u>".data = "_a<b_".data := by decide
example : clean_extracted_text "a > b <u>x</u><".data = "a > b _x_<".data := by decide
example : clean_extracted_text "<u></u>".data = "__".data := by decide
example : clean_extracted_text "<i>one</i><i>two</i>".data = "*one**two*".data := by decide
example : clean_extracted_text "<u\n>z</u>".data = "z".data := by decide
example : clean_extracted_text "< <u>q</u>".data = "< _q_".data := by decide
example : clean_extracted_text "\t\t  mixed \t\n\nEND".data = "    mixed\n\nEND".data := by decide
example : clean_extracted_text "<b>bold\ntext</b> plain".data = "bold\ntext plain".data := by decide

/-! ### Complete tags: specification-side predicates -/

/-- Predicate `HasClose l`: the pattern `[^>]+>` matches a prefix of `l`, i.e. `l`
starts with at least one non-`'>'` character followed eventually by `'>'`. -/
def HasClose (l : List Char) : Prop :=
  ∃ mid r, l = mid ++ '>' :: r ∧ mid ≠ [] ∧ '>' ∉ mid

/-- Predicate `HasTag l`: some substring of `l` is a complete HTML-like tag, i.e. a
match of the pattern `<[^>]+>`. -/
def HasTag (l : List Char) : Prop :=
  ∃ x mid r, l = x ++ '<' :: (mid ++ '>' :: r) ∧ mid ≠ [] ∧ '>' ∉ mid

/-- Executable check for `HasTag`. -/
def hasTagB : List Char → Bool
  | [] => false
  | c :: l => (decide (c = '<') && (findClose l).isSome) || hasTagB l

lemma findCloseAux_eq_some {l r : List Char} :
    findCloseAux l = some r ↔ ∃ m, l = m ++ '>' :: r ∧ '>' ∉ m := by
  induction l generalizing r with
  | nil =>
    simp only [findCloseAux]
    constructor
    · intro h; cases h
    · rintro ⟨m, hm, -⟩; exact absurd hm (by simp)
  | cons c rest ih =>
    simp only [findCloseAux]
    by_cases hc : c = '>'
    · subst hc
      rw [if_pos rfl]
      constructor
      · rintro h
        exact ⟨[], by simpa using h, by simp⟩
      · rintro ⟨m, hm, hnm⟩
        cases m with
        | nil => simp at hm; simp [hm]
        | cons m0 m' =>
          simp at hm
          exact absurd (show ('>' : Char) ∈ m0 :: m' from by rw [hm.1]; exact List.mem_cons_self _ _) hnm
    · rw [if_neg hc]
      rw [ih]
      constructor
      · rintro ⟨m, hm, hnm⟩
        exact ⟨c :: m, by simp [hm], by simp [hnm, Ne.symm, hc]⟩
      · rintro ⟨m, hm, hnm⟩
        cases m with
        | nil => simp at hm; exact absurd hm.1 hc
        | cons m0 m' =>
          simp at hm hnm
          exact ⟨m', hm.2, hnm.2⟩

lemma findCloseAux_eq_none {l : List Char} :
    findCloseAux l = none ↔ '>' ∉ l := by
  induction l with
  | nil => simp [findCloseAux]
  | cons c rest ih =>
    simp only [findCloseAux]
    by_cases hc : c = '>'
    · subst hc; simp
    · rw [if_neg hc, ih]; simp [Ne.symm hc]

lemma findClose_eq_some {l r : List Char} :
    findClose l = some r ↔ ∃ m, l = m ++ '>' :: r ∧ m ≠ [] ∧ '>' ∉ m := by
  cases l with
  | nil =>
    simp only [findClose]
    constructor
    · intro h; cases h
    · rintro ⟨m, hm, -, -⟩; exact absurd hm (by simp)
  | cons c rest =>
    simp only [findClose]
    by_cases hc : c = '>'
    · subst hc
      rw [if_pos rfl]
      constructor
      · intro h; cases h
      · rintro ⟨m, hm, hmne, hnm⟩
        cases m with
        | nil => simp at hmne
        | cons m0 m' =>
          simp at hm
          exact absurd (show ('>' : Char) ∈ m0 :: m' from by rw [hm.1]; exact List.mem_cons_self _ _) hnm
    · rw [if_neg hc, findCloseAux_eq_some]
      constructor
      · rintro ⟨m, hm, hnm⟩
        exact ⟨c :: m, by simp [hm], by simp, by simp [hnm, Ne.symm, hc]⟩
      · rintro ⟨m, hm, hmne, hnm⟩
        cases m with
        | nil => simp at hm; exact absurd hm.1 hc
        | cons m0 m' =>
          simp at hm hnm
          exact ⟨m', hm.2, hnm.2⟩

lemma findClose_isSome_iff {l : List Char} :
    (findClose l).isSome = true ↔ HasClose l := by
  rw [Option.isSome_iff_exists]
  unfold HasClose
  constructor
  · rintro ⟨r, hr⟩
    obtain ⟨m, hm, hmne, hnm⟩ := findClose_eq_some.mp hr
    exact ⟨m, r, hm, hmne, hnm⟩
  · rintro ⟨m, r, hm, hmne, hnm⟩
    exact ⟨r, findClose_eq_some.mpr ⟨m, hm, hmne, hnm⟩⟩

lemma findClose_none_cases {l : List Char} (h : findClose l = none) :
    l = [] ∨ (∃ t, l = '>' :: t) ∨ '>' ∉ l := by
  cases l with
  | nil => exact Or.inl rfl
  | cons c rest =>
    by_cases hc : c = '>'
    · exact Or.inr (Or.inl ⟨rest, by rw [hc]⟩)
    · refine Or.inr (Or.inr ?_)
      simp only [findClose, if_neg hc] at h
      have := findCloseAux_eq_none.mp h
      simp [Ne.symm hc, this]

lemma findClose_none_of_not_mem {l : List Char} (h : '>' ∉ l) :
    findClose l = none := by
  cases l with
  | nil => rfl
  | cons c rest =>
    simp at h
    simp only [findClose, if_neg (Ne.symm h.1)]
    exact findCloseAux_eq_none.mpr h.2

lemma findClose_some_length {l r : List Char} (h : findClose l = some r) :
    r.length < l.length := by
  obtain ⟨m, hm, hmne, -⟩ := findClose_eq_some.mp h
  subst hm
  simp [List.length_append]
  omega

lemma findClose_some_subset {l r : List Char} (h : findClose l = some r) :
    ∀ a ∈ r, a ∈ l := by
  obtain ⟨m, hm, -, -⟩ := findClose_eq_some.mp h
  subst hm
  intro a ha
  simp [ha]

lemma HasTag_cons_iff {c : Char} {l : List Char} :
    HasTag (c :: l) ↔ (c = '<' ∧ HasClose l) ∨ HasTag l := by
  constructor
  · rintro ⟨x, mid, r, hx, hmne, hnm⟩
    cases x with
    | nil =>
      simp at hx
      exact Or.inl ⟨hx.1, mid, r, hx.2, hmne, hnm⟩
    | cons x0 x' =>
      simp at hx
      exact Or.inr ⟨x', mid, r, hx.2, hmne, hnm⟩
  · rintro (⟨hc, mid, r, hl, hmne, hnm⟩ | ⟨x, mid, r, hl, hmne, hnm⟩)
    · exact ⟨[], mid, r, by simp [hc, hl], hmne, hnm⟩
    · exact ⟨c :: x, mid, r, by simp [hl], hmne, hnm⟩

lemma hasTagB_iff {l : List Char} : hasTagB l = true ↔ HasTag l := by
  induction l with
  | nil =>
    simp only [hasTagB]
    constructor
    · intro h; cases h
    · rintro ⟨x, mid, r, hx, -, -⟩
      exact absurd hx (by simp)
  | cons c rest ih =>
    simp only [hasTagB, Bool.or_eq_true, Bool.and_eq_true, decide_eq_true_eq]
    rw [ih, findClose_isSome_iff, HasTag_cons_iff]

lemma hasTagB_eq_false_iff {l : List Char} : hasTagB l = false ↔ ¬ HasTag l := by
  rw [← hasTagB_iff]
  cases hasTagB l <;> simp

lemma stripTagsFuel_nil : ∀ n, stripTagsFuel n [] = []
  | 0 => rfl
  | _ + 1 => rfl

lemma stripTagsFuel_congr : ∀ (n m : Nat) (l : List Char), l.length ≤ n → l.length ≤ m →
    stripTagsFuel n l = stripTagsFuel m l := by
  intro n
  induction n with
  | zero =>
    intro m l h1 _
    have : l = [] := List.length_eq_zero.mp (Nat.le_zero.mp h1)
    subst this
    rw [stripTagsFuel_nil, stripTagsFuel_nil]
  | succ n ih =>
    intro m l h1 h2
    cases l with
    | nil => rw [stripTagsFuel_nil, stripTagsFuel_nil]
    | cons c rest =>
      cases m with
      | zero => simp at h2
      | succ m' =>
        simp only [List.length_cons, Nat.succ_le_succ_iff] at h1 h2
        simp only [stripTagsFuel]
        by_cases hc : c = '<'
        · rw [if_pos hc, if_pos hc]
          cases hfc : findClose rest with
          | none => rw [ih m' rest h1 h2]
          | some r2 =>
            have hlt := findClose_some_length hfc
            exact ih m' r2 (by omega) (by omega)
        · rw [if_neg hc, if_neg hc, ih m' rest h1 h2]

lemma stripTags_cons_ne {c : Char} {l : List Char} (h : c ≠ '<') :
    stripTags (c :: l) = c :: stripTags l := by
  simp only [stripTags, List.length_cons, stripTagsFuel, if_neg h]

lemma stripTags_cons_none {l : List Char} (h : findClose l = none) :
    stripTags ('<' :: l) = '<' :: stripTags l := by
  simp [stripTags, stripTagsFuel, h]

lemma stripTags_cons_some {l r : List Char} (h : findClose l = some r) :
    stripTags ('<' :: l) = stripTags r := by
  simp only [stripTags, List.length_cons, stripTagsFuel, h, if_true]
  exact stripTagsFuel_congr _ _ r (Nat.le_of_lt (findClose_some_length h)) le_rfl

lemma stripTagsFuel_subset : ∀ (n : Nat) (l : List Char) (a : Char),
    a ∈ stripTagsFuel n l → a ∈ l := by
  intro n
  induction n with
  | zero => intro l a h; exact h
  | succ n ih =>
    intro l a h
    cases l with
    | nil => rwa [stripTagsFuel_nil] at h
    | cons c rest =>
      simp only [stripTagsFuel] at h
      by_cases hc : c = '<'
      · rw [if_pos hc] at h
        cases hfc : findClose rest with
        | none =>
          rw [hfc] at h
          rcases List.mem_cons.mp h with h | h
          · simp [h]
          · exact List.mem_cons_of_mem _ (ih rest a h)
        | some r2 =>
          rw [hfc] at h
          exact List.mem_cons_of_mem _ (findClose_some_subset hfc a (ih r2 a h))
      · rw [if_neg hc] at h
        rcases List.mem_cons.mp h with h | h
        · simp [h]
        · exact List.mem_cons_of_mem _ (ih rest a h)

/-- The tag-removal pass leaves no complete `<[^>]+>` tag in its output. -/
lemma stripTagsFuel_noTag : ∀ (n : Nat) (l : List Char), l.length ≤ n →
    hasTagB (stripTagsFuel n l) = false := by
  intro n
  induction n with
  | zero =>
    intro l h1
    have : l = [] := List.length_eq_zero.mp (Nat.le_zero.mp h1)
    subst this
    rfl
  | succ n ih =>
    intro l h1
    cases l with
    | nil => rw [stripTagsFuel_nil]; rfl
    | cons c rest =>
      simp only [List.length_cons, Nat.succ_le_succ_iff] at h1
      simp only [stripTagsFuel]
      by_cases hc : c = '<'
      · rw [if_pos hc]
        cases hfc : findClose rest with
        | some r2 =>
          have hlt := findClose_some_length hfc
          exact ih r2 (by omega)
        | none =>
          simp only [hasTagB, Bool.or_eq_false_iff, Bool.and_eq_false_iff]
          refine ⟨Or.inr ?_, ih rest h1⟩
          rcases findClose_none_cases hfc with h | ⟨t, ht⟩ | h
          · subst h; rw [stripTagsFuel_nil]; rfl
          · subst ht
            cases n with
            | zero => simp at h1
            | succ n' =>
              simp only [stripTagsFuel, if_neg (by decide : ('>' : Char) ≠ '<')]
              simp [findClose]
          · have : '>' ∉ stripTagsFuel n rest := fun hm => h (stripTagsFuel_subset n rest '>' hm)
            simp [findClose_none_of_not_mem this]
      · rw [if_neg hc]
        simp only [hasTagB, Bool.or_eq_false_iff, Bool.and_eq_false_iff]
        exact ⟨Or.inl (by simp [hc]), ih rest h1⟩

/-- No complete tag survives `stripTags`. -/
lemma stripTags_noTag (l : List Char) : hasTagB (stripTags l) = false :=
  stripTagsFuel_noTag l.length l le_rfl

/-- No complete tag survives the tag-processing stage. -/
lemma tagPhase_noTag (l : List Char) : hasTagB (tagPhase l) = false :=
  stripTags_noTag _

/-! ### The line-processing stage only deletes whitespace or turns it into
spaces; this cannot create a complete tag. -/

/-- Relation `Shr a b` ("b shrinks a"): `b` is obtained from `a` by keeping
characters, replacing a whitespace character by `' '`, or deleting a
whitespace character. -/
inductive Shr : List Char → List Char → Prop
  | nil : Shr [] []
  | keep (c : Char) {a b : List Char} : Shr a b → Shr (c :: a) (c :: b)
  | subst {c : Char} {a b : List Char} : isPyWs c = true → Shr a b → Shr (c :: a) (' ' :: b)
  | drop {c : Char} {a b : List Char} : isPyWs c = true → Shr a b → Shr (c :: a) b

lemma isPyWs_ne_gt {c : Char} (h : isPyWs c = true) : c ≠ '>' := by
  intro hc; subst hc; exact absurd h (by decide)

lemma isPyWs_ne_lt {c : Char} (h : isPyWs c = true) : c ≠ '<' := by
  intro hc; subst hc; exact absurd h (by decide)

lemma shrRefl : ∀ l : List Char, Shr l l
  | [] => Shr.nil
  | c :: rest => Shr.keep c (shrRefl rest)

lemma Shr.append {a b a' b' : List Char} (h : Shr a b) (h' : Shr a' b') :
    Shr (a ++ a') (b ++ b') := by
  induction h with
  | nil => exact h'
  | keep c _ ih => exact Shr.keep c ih
  | subst hws _ ih => exact Shr.subst hws ih
  | drop hws _ ih => exact Shr.drop hws ih

lemma Shr.allWs {l : List Char} (h : ∀ c ∈ l, isPyWs c = true) : Shr l [] := by
  induction l with
  | nil => exact Shr.nil
  | cons c rest ih =>
    exact Shr.drop (h c (List.mem_cons_self _ _)) (ih fun x hx => h x (List.mem_cons_of_mem _ hx))

lemma Shr.toSpaces {l : List Char} (h : ∀ c ∈ l, isPyWs c = true) :
    Shr l (List.replicate l.length ' ') := by
  induction l with
  | nil => exact Shr.nil
  | cons c rest ih =>
    exact Shr.subst (h c (List.mem_cons_self _ _)) (ih fun x hx => h x (List.mem_cons_of_mem _ hx))

lemma HasClose_nil : ¬ HasClose ([] : List Char) := by
  rintro ⟨mid, r, hm, hmne, -⟩
  cases mid <;> simp at hm

lemma HasClose.cons {c : Char} {m : List Char} (hc : c ≠ '>') (h : HasClose m) :
    HasClose (c :: m) := by
  obtain ⟨mid, r, hm, hmne, hnm⟩ := h
  exact ⟨c :: mid, r, by simp [hm], by simp, by simp [hnm, Ne.symm hc]⟩

lemma HasTag_nil : ¬ HasTag ([] : List Char) := by
  rintro ⟨x, mid, r, hx, -, -⟩
  exact absurd hx (by simp)

/-- Pull a head `'>'` of the shrunken list back to the original: the
original starts with a (possibly empty) run of whitespace followed by `'>'`. -/
lemma Shr.gt_pullback {a b : List Char} (h : Shr a b) :
    ∀ {r : List Char}, b = '>' :: r → ∃ w a', a = w ++ '>' :: a' ∧ ∀ x ∈ w, isPyWs x = true := by
  induction h with
  | nil => intro r hr; cases hr
  | @keep c a0 b0 hs ih =>
    intro r hr
    rw [List.cons.injEq] at hr
    exact ⟨[], a0, by simp [hr.1], by simp⟩
  | @subst c a0 b0 hws hs ih =>
    intro r hr
    rw [List.cons.injEq] at hr
    exact absurd hr.1 (by decide)
  | @drop c a0 b0 hws hs ih =>
    intro r hr
    obtain ⟨w, a', ha, hw⟩ := ih hr
    refine ⟨c :: w, a', by simp [ha], ?_⟩
    intro x hx
    rcases List.mem_cons.mp hx with hx | hx
    · subst hx; exact hws
    · exact hw x hx

/-- Shrinking cannot create a `[^>]+>` prefix. -/
lemma Shr.hasClose {a b : List Char} (h : Shr a b) (hb : HasClose b) : HasClose a := by
  induction h with
  | nil => exact absurd hb HasClose_nil
  | @keep c a0 b0 hs ih =>
    obtain ⟨mid, r, hm, hmne, hnm⟩ := hb
    cases mid with
    | nil => exact absurd rfl hmne
    | cons m0 m' =>
      simp only [List.cons_append, List.cons.injEq] at hm
      have hc : c ≠ '>' := by
        intro hc
        exact hnm (by rw [← hm.1, ← hc]; exact List.mem_cons_self _ _)
      cases m' with
      | nil =>
        obtain ⟨w, a', ha, hw⟩ := hs.gt_pullback (by simpa using hm.2)
        refine ⟨c :: w, a', by simp [ha], by simp, ?_⟩
        intro hmem
        rcases List.mem_cons.mp hmem with hx | hx
        · exact hc hx.symm
        · exact isPyWs_ne_gt (hw '>' hx) rfl
      | cons m1 m'' =>
        have hb0 : HasClose b0 := ⟨m1 :: m'', r, hm.2, by simp, fun hmem => hnm (List.mem_cons_of_mem _ hmem)⟩
        exact (ih hb0).cons hc
  | @subst c a0 b0 hws hs ih =>
    obtain ⟨mid, r, hm, hmne, hnm⟩ := hb
    cases mid with
    | nil => exact absurd rfl hmne
    | cons m0 m' =>
      simp only [List.cons_append, List.cons.injEq] at hm
      have hc : c ≠ '>' := isPyWs_ne_gt hws
      cases m' with
      | nil =>
        obtain ⟨w, a', ha, hw⟩ := hs.gt_pullback (by simpa using hm.2)
        refine ⟨c :: w, a', by simp [ha], by simp, ?_⟩
        intro hmem
        rcases List.mem_cons.mp hmem with hx | hx
        · exact hc hx.symm
        · exact isPyWs_ne_gt (hw '>' hx) rfl
      | cons m1 m'' =>
        have hb0 : HasClose b0 := ⟨m1 :: m'', r, hm.2, by simp, fun hmem => hnm (List.mem_cons_of_mem _ hmem)⟩
        exact (ih hb0).cons hc
  | @drop c a0 b0 hws hs ih =>
    exact (ih hb).cons (isPyWs_ne_gt hws)

/-- Shrinking cannot create a complete tag. -/
lemma Shr.hasTag {a b : List Char} (h : Shr a b) (hb : HasTag b) : HasTag a := by
  induction h with
  | nil => exact absurd hb HasTag_nil
  | @keep c a0 b0 hs ih =>
    rcases HasTag_cons_iff.mp hb with ⟨hc, hcl⟩ | htl
    · exact HasTag_cons_iff.mpr (Or.inl ⟨hc, hs.hasClose hcl⟩)
    · exact HasTag_cons_iff.mpr (Or.inr (ih htl))
  | @subst c a0 b0 hws hs ih =>
    rcases HasTag_cons_iff.mp hb with ⟨hc, -⟩ | htl
    · exact absurd hc (by decide)
    · exact HasTag_cons_iff.mpr (Or.inr (ih htl))
  | @drop c a0 b0 hws hs ih =>
    exact HasTag_cons_iff.mpr (Or.inr (ih hb))

lemma mem_takeWhile_ws {l : List Char} {x : Char} (h : x ∈ l.takeWhile isPyWs) :
    isPyWs x = true := by
  induction l with
  | nil => simp [List.takeWhile] at h
  | cons c rest ih =>
    rw [List.takeWhile_cons] at h
    by_cases hc : isPyWs c
    · rw [if_pos hc] at h
      rcases List.mem_cons.mp h with h | h
      · subst h; exact hc
      · exact ih h
    · rw [if_neg hc] at h
      simp at h

lemma dropTrailWs_decomp (m : List Char) :
    m = dropTrailWs m ++ (m.reverse.takeWhile isPyWs).reverse := by
  have h := List.takeWhile_append_dropWhile (p := isPyWs) (l := m.reverse)
  have h2 := congrArg List.reverse h
  rw [List.reverse_append, List.reverse_reverse] at h2
  exact h2.symm

lemma trimLine_eq_nil_allWs {l : List Char} (h : trimLine l = []) :
    ∀ c ∈ l, isPyWs c = true := by
  have hdrop : ∀ c ∈ l.dropWhile isPyWs, isPyWs c = true := by
    unfold trimLine dropTrailWs at h
    have h1 : (l.dropWhile isPyWs).reverse.dropWhile isPyWs = [] := by
      have := congrArg List.reverse h
      rwa [List.reverse_reverse, List.reverse_nil] at this
    intro c hc
    have : ∀ x ∈ (l.dropWhile isPyWs).reverse, isPyWs x = true := by
      intro x hx
      have := List.dropWhile_eq_nil_iff.mp h1
      simpa using this x (by simpa using hx)
    exact this c (by simpa using hc)
  intro c hc
  rw [← List.takeWhile_append_dropWhile (p := isPyWs) (l := l)] at hc
  rcases List.mem_append.mp hc with hc | hc
  · exact mem_takeWhile_ws hc
  · exact hdrop c hc

lemma Shr_normalizeLine (l : List Char) : Shr l (normalizeLine l) := by
  simp only [normalizeLine]
  by_cases h : trimLine l = []
  · rw [if_pos h]
    exact Shr.allWs (trimLine_eq_nil_allWs h)
  · rw [if_neg h]
    have hm : l.dropWhile isPyWs =
        trimLine l ++ ((l.dropWhile isPyWs).reverse.takeWhile isPyWs).reverse :=
      dropTrailWs_decomp (l.dropWhile isPyWs)
    have h1 : Shr (l.takeWhile isPyWs) (List.replicate (leadWs l) ' ') :=
      Shr.toSpaces fun _ hc => mem_takeWhile_ws hc
    have h3 : Shr ((l.dropWhile isPyWs).reverse.takeWhile isPyWs).reverse [] :=
      Shr.allWs fun c hc => mem_takeWhile_ws (by simpa using hc)
    have hcomb := Shr.append h1 (Shr.append (shrRefl (trimLine l)) h3)
    rw [List.append_nil] at hcomb
    have hleq : l = l.takeWhile isPyWs ++
        (trimLine l ++ ((l.dropWhile isPyWs).reverse.takeWhile isPyWs).reverse) := by
      conv_lhs => rw [← List.takeWhile_append_dropWhile (p := isPyWs) (l := l), hm]
    rw [← hleq] at hcomb
    exact hcomb

lemma splitLines_ne_nil (l : List Char) : splitLines l ≠ [] := by
  cases l with
  | nil => simp [splitLines]
  | cons c rest =>
    simp only [splitLines]
    by_cases hc : c = '\n'
    · rw [if_pos hc]; simp
    · rw [if_neg hc]
      cases splitLines rest <;> simp

lemma joinLines_cons (x : List Char) (xs : List (List Char)) (h : xs ≠ []) :
    joinLines (x :: xs) = x ++ '\n' :: joinLines xs := by
  cases xs with
  | nil => exact absurd rfl h
  | cons y t => rfl

lemma joinLines_splitLines (l : List Char) : joinLines (splitLines l) = l := by
  induction l with
  | nil => rfl
  | cons c rest ih =>
    simp only [splitLines]
    by_cases hc : c = '\n'
    · subst hc
      rw [if_pos rfl, joinLines_cons _ _ (splitLines_ne_nil rest), ih]
      rfl
    · rw [if_neg hc]
      cases hsp : splitLines rest with
      | nil => exact absurd hsp (splitLines_ne_nil rest)
      | cons h t =>
        rw [hsp] at ih
        cases t with
        | nil =>
          have h2 : joinLines [h] = h := rfl
          rw [h2] at ih
          show joinLines [c :: h] = c :: rest
          rw [show joinLines [c :: h] = c :: h from rfl, ih]
        | cons t0 t' =>
          show joinLines ((c :: h) :: t0 :: t') = c :: rest
          rw [show joinLines ((c :: h) :: t0 :: t') = (c :: h) ++ '\n' :: joinLines (t0 :: t') from rfl]
          have ih' : h ++ '\n' :: joinLines (t0 :: t') = rest := ih
          rw [List.cons_append, ih']

lemma splitLines_no_newline (l : List Char) : ∀ x ∈ splitLines l, '\n' ∉ x := by
  induction l with
  | nil =>
    intro x hx
    simp [splitLines] at hx
    simp [hx]
  | cons c rest ih =>
    intro x hx
    simp only [splitLines] at hx
    by_cases hc : c = '\n'
    · rw [if_pos hc] at hx
      rcases List.mem_cons.mp hx with hx | hx
      · simp [hx]
      · exact ih x hx
    · rw [if_neg hc] at hx
      cases hsp : splitLines rest with
      | nil => exact absurd hsp (splitLines_ne_nil rest)
      | cons h t =>
        rw [hsp] at hx
        rcases List.mem_cons.mp hx with hx | hx
        · subst hx
          intro hmem
          rcases List.mem_cons.mp hmem with hmem | hmem
          · exact hc hmem.symm
          · exact ih h (hsp ▸ List.mem_cons_self _ _) hmem
        · exact ih x (hsp ▸ List.mem_cons_of_mem _ hx)

lemma splitLines_of_no_newline {l : List Char} (h : '\n' ∉ l) : splitLines l = [l] := by
  induction l with
  | nil => rfl
  | cons c rest ih =>
    simp only [splitLines]
    simp at h
    rw [if_neg (Ne.symm h.1), ih h.2]

lemma splitLines_append_newline {x : List Char} (m : List Char) (h : '\n' ∉ x) :
    splitLines (x ++ '\n' :: m) = x :: splitLines m := by
  induction x with
  | nil => simp [splitLines]
  | cons c x' ih =>
    simp at h
    simp only [List.cons_append, splitLines, List.append_eq]
    rw [if_neg (Ne.symm h.1), ih h.2]

lemma splitLines_joinLines : ∀ (xs : List (List Char)), xs ≠ [] →
    (∀ x ∈ xs, '\n' ∉ x) → splitLines (joinLines xs) = xs := by
  intro xs
  induction xs with
  | nil => intro h; exact absurd rfl h
  | cons x t ih =>
    intro _ hnl
    cases t with
    | nil =>
      show splitLines x = [x]
      exact splitLines_of_no_newline (hnl x (List.mem_cons_self _ _))
    | cons y t' =>
      rw [joinLines_cons _ _ (by simp),
        splitLines_append_newline _ (hnl x (List.mem_cons_self _ _)),
        ih (by simp) fun z hz => hnl z (List.mem_cons_of_mem _ hz)]

lemma Shr_joinLines_map : ∀ xs : List (List Char),
    Shr (joinLines xs) (joinLines (xs.map normalizeLine)) := by
  intro xs
  induction xs with
  | nil => exact Shr.nil
  | cons x t ih =>
    cases t with
    | nil => exact Shr_normalizeLine x
    | cons y t' =>
      rw [joinLines_cons x (y :: t') (by simp), List.map_cons, List.map_cons,
        joinLines_cons (normalizeLine x) (normalizeLine y :: List.map normalizeLine t') (by simp)]
      refine Shr.append (Shr_normalizeLine x) (Shr.keep '\n' ?_)
      rw [← List.map_cons]
      exact ih

lemma Shr_lineFix (l : List Char) : Shr l (lineFix l) := by
  have h := Shr_joinLines_map (splitLines l)
  rwa [joinLines_splitLines] at h

lemma lineFix_noTag {l : List Char} (h : hasTagB l = false) :
    hasTagB (lineFix l) = false := by
  rw [hasTagB_eq_false_iff] at h ⊢
  exact fun ht => h ((Shr_lineFix l).hasTag ht)

lemma clean_noTag (l : List Char) : hasTagB (clean_extracted_text l) = false := by
  unfold clean_extracted_text
  by_cases h : l = []
  · rw [if_pos h]; subst h; rfl
  · rw [if_neg h]; exact lineFix_noTag (tagPhase_noTag l)

/-- C1 (amended): matched single-line `<u>…</u>`, `<b>…</b>`, `<i>…</i>`
pairs are replaced by `_…_`, `**…**`, `*…*` respectively, and no complete
HTML-like tag — a `'<'`, then one or more non-`'>'` characters, then `'>'`
— remains anywhere in the output of `clean_extracted_text`.  (Lone `'<'`
or `'>'` characters that are not part of a complete tag may survive, so
the original claim that no `'<'`/`'>'` characters remain at all is too
strong.) -/
theorem clean_extracted_text_no_complete_tag :
    (∀ l : List Char, hasTagB (clean_extracted_text l) = false) ∧
    clean_extracted_text "<u>a</u> <b>c</b> <i>e</i>".data = "_a_ **c** *e*".data :=
  ⟨clean_noTag, by decide⟩

/-- C1 counterexample: the input `"<u>x</u> a<b"` contains a matched
`<u>…</u>` pair, yet the output of `clean_extracted_text` still contains a
`'<'` character; the claim that the output of the Markup Normalizer
contains no `'<'` or `'>'` characters at all is false. -/
theorem clean_extracted_text_retains_stray_bracket :
    clean_extracted_text "<u>x</u> a<b".data = "_x_ a<b".data ∧
    '<' ∈ clean_extracted_text "<u>x</u> a<b".data := by
  decide

/-! ### Stepping lemmas for the pair substitutions -/

lemma subPairFuel_nil (t : Char) (w : List Char) : ∀ n, subPairFuel t w n [] = []
  | 0 => rfl
  | _ + 1 => rfl

lemma findBody_length {t : Char} : ∀ {l : List Char} {b r : List Char},
    findBody t l = some (b, r) → r.length ≤ l.length := by
  intro l
  induction l with
  | nil => intro b r h; cases h
  | cons c rest ih =>
    intro b r h
    simp only [findBody] at h
    by_cases hcl : isCloseAt t (c :: rest) = true
    · rw [if_pos hcl] at h
      have h' : ([] : List Char) = b ∧ rest.drop 3 = r := by
        rw [Option.some.injEq, Prod.mk.injEq] at h; exact h
      rw [← h'.2, List.length_drop, List.length_cons]
      omega
    · rw [if_neg hcl] at h
      by_cases hnl : c = '\n'
      · rw [if_pos hnl] at h; cases h
      · rw [if_neg hnl] at h
        cases hfb : findBody t rest with
        | none => rw [hfb] at h; cases h
        | some p =>
          obtain ⟨b0, r0⟩ := p
          rw [hfb] at h
          have h' : some (c :: b0, r0) = some (b, r) := h
          have h'' : c :: b0 = b ∧ r0 = r := by
            rw [Option.some.injEq, Prod.mk.injEq] at h'; exact h'
          have hr := ih (b := b0) (r := r0) hfb
          rw [← h''.2, List.length_cons]
          omega

lemma subPairFuel_congr (t : Char) (w : List Char) :
    ∀ (n m : Nat) (l : List Char), l.length ≤ n → l.length ≤ m →
    subPairFuel t w n l = subPairFuel t w m l := by
  intro n
  induction n with
  | zero =>
    intro m l h1 _
    have : l = [] := List.length_eq_zero.mp (Nat.le_zero.mp h1)
    subst this
    rw [subPairFuel_nil, subPairFuel_nil]
  | succ n ih =>
    intro m l h1 h2
    cases l with
    | nil => rw [subPairFuel_nil, subPairFuel_nil]
    | cons c rest =>
      cases m with
      | zero => simp at h2
      | succ m' =>
        simp only [List.length_cons, Nat.succ_le_succ_iff] at h1 h2
        simp only [subPairFuel]
        by_cases ho : isOpenAt t (c :: rest) = true
        · rw [if_pos ho, if_pos ho]
          cases hfb : findBody t (rest.drop 2) with
          | none => rw [ih m' rest h1 h2]
          | some p =>
            obtain ⟨b0, r0⟩ := p
            have hle : r0.length ≤ rest.length := by
              have h3 := findBody_length (t := t) (l := rest.drop 2) hfb
              have h4 := List.length_drop 2 rest
              omega
            show w ++ b0 ++ w ++ subPairFuel t w n r0 = w ++ b0 ++ w ++ subPairFuel t w m' r0
            rw [ih m' r0 (by omega) (by omega)]
        · rw [if_neg ho, if_neg ho, ih m' rest h1 h2]

lemma subTagPair_cons_noOpen {t c : Char} {w l : List Char}
    (h : isOpenAt t (c :: l) = false) :
    subTagPair t w (c :: l) = c :: subTagPair t w l := by
  simp only [subTagPair, List.length_cons, subPairFuel, h]
  simp

lemma subTagPair_cons_openFail {t c : Char} {w l : List Char}
    (ho : isOpenAt t (c :: l) = true) (hf : findBody t (l.drop 2) = none) :
    subTagPair t w (c :: l) = c :: subTagPair t w l := by
  simp only [subTagPair, List.length_cons, subPairFuel, ho, hf, if_true]

lemma subTagPair_cons_openMatch {t c : Char} {w l b r : List Char}
    (ho : isOpenAt t (c :: l) = true) (hf : findBody t (l.drop 2) = some (b, r)) :
    subTagPair t w (c :: l) = w ++ b ++ w ++ subTagPair t w r := by
  simp only [subTagPair, List.length_cons, subPairFuel, ho, hf, if_true]
  congr 1
  refine subPairFuel_congr t w _ _ r ?_ le_rfl
  have h3 := findBody_length (t := t) (l := l.drop 2) hf
  have h4 := List.length_drop 2 l
  omega

lemma isOpenAt_cons_ne {t c : Char} {l : List Char} (h : c ≠ '<') :
    isOpenAt t (c :: l) = false := by
  match l with
  | [] => rfl
  | [_] => rfl
  | c1 :: c2 :: _ => simp [isOpenAt, h]

lemma isCloseAt_cons_ne {t c : Char} {l : List Char} (h : c ≠ '<') :
    isCloseAt t (c :: l) = false := by
  match l with
  | [] => rfl
  | [_] => rfl
  | [_, _] => rfl
  | c1 :: c2 :: c3 :: _ => simp [isCloseAt, h]

lemma subTagPair_append_free {t : Char} {w : List Char} :
    ∀ (a : List Char), (∀ c ∈ a, c ≠ '<') →
    ∀ z, subTagPair t w (a ++ z) = a ++ subTagPair t w z := by
  intro a
  induction a with
  | nil => intro _ z; simp
  | cons c a' ih =>
    intro ha z
    rw [List.cons_append,
      subTagPair_cons_noOpen (isOpenAt_cons_ne (ha c (List.mem_cons_self _ _))),
      ih (fun x hx => ha x (List.mem_cons_of_mem _ hx)) z, List.cons_append]

lemma stripTags_append_free :
    ∀ (a : List Char), (∀ c ∈ a, c ≠ '<') →
    ∀ z, stripTags (a ++ z) = a ++ stripTags z := by
  intro a
  induction a with
  | nil => intro _ z; simp
  | cons c a' ih =>
    intro ha z
    rw [List.cons_append, stripTags_cons_ne (ha c (List.mem_cons_self _ _)),
      ih (fun x hx => ha x (List.mem_cons_of_mem _ hx)) z, List.cons_append]

lemma findBody_stop_nl {t : Char} :
    ∀ (a : List Char), (∀ c ∈ a, c ≠ '\n' ∧ c ≠ '<') →
    ∀ z, findBody t (a ++ '\n' :: z) = none := by
  intro a
  induction a with
  | nil =>
    intro _ z
    simp [findBody, isCloseAt_cons_ne (show ('\n' : Char) ≠ '<' by decide)]
  | cons c a' ih =>
    intro ha z
    have hc := ha c (List.mem_cons_self _ _)
    rw [List.cons_append]
    simp only [findBody]
    rw [if_neg (by simp [isCloseAt_cons_ne hc.2]), if_neg hc.1,
      ih (fun x hx => ha x (List.mem_cons_of_mem _ hx)) z]

/-- C2 (amended): a `<u>…</u>` pair whose body spans a line break is NOT
converted to `_…_`: without `re.DOTALL` the body pattern `(.*?)` cannot
match across a newline, so the pair rule fails; the opening and closing
tags are instead deleted by the remaining-tag rule `<[^>]+>` and the body
is left unwrapped, after which only the line-processing stage runs on the
bare body.  (The original claim that the pair rules support multi-line
bodies because matching runs on the whole string is false.) -/
theorem multiline_pair_not_converted (b1 b2 : List Char)
    (h1 : ∀ c ∈ b1, c ≠ '\n' ∧ c ≠ '<') (h2 : ∀ c ∈ b2, c ≠ '<') :
    clean_extracted_text (('<' :: 'u' :: '>' :: (b1 ++ '\n' :: b2)) ++ ['<', '/', 'u', '>'])
      = lineFix (b1 ++ '\n' :: b2) := by
  have hfree : ∀ c ∈ 'u' :: '>' :: (b1 ++ '\n' :: b2), c ≠ '<' := by
    intro c hc
    rcases List.mem_cons.mp hc with hc | hc
    · subst hc; decide
    rcases List.mem_cons.mp hc with hc | hc
    · subst hc; decide
    rcases List.mem_append.mp hc with hc | hc
    · exact (h1 c hc).2
    rcases List.mem_cons.mp hc with hc | hc
    · subst hc; decide
    · exact h2 c hc
  have hbodyfree : ∀ c ∈ b1 ++ '\n' :: b2, c ≠ '<' := by
    intro c hc
    rcases List.mem_append.mp hc with hc | hc
    · exact (h1 c hc).2
    rcases List.mem_cons.mp hc with hc | hc
    · subst hc; decide
    · exact h2 c hc
  have hEq : (('<' :: 'u' :: '>' :: (b1 ++ '\n' :: b2)) ++ ['<', '/', 'u', '>'])
      = '<' :: (('u' :: '>' :: (b1 ++ '\n' :: b2)) ++ ['<', '/', 'u', '>']) := by simp
  have ho : isOpenAt 'u'
      ('<' :: (('u' :: '>' :: (b1 ++ '\n' :: b2)) ++ ['<', '/', 'u', '>'])) = true := by
    simp only [List.cons_append, isOpenAt]
    decide
  have hdrop : ((('u' :: '>' :: (b1 ++ '\n' :: b2)) ++ ['<', '/', 'u', '>']).drop 2)
      = b1 ++ '\n' :: (b2 ++ ['<', '/', 'u', '>']) := by simp
  have hf : findBody 'u' ((('u' :: '>' :: (b1 ++ '\n' :: b2)) ++ ['<', '/', 'u', '>']).drop 2)
      = none := by
    rw [hdrop]
    exact findBody_stop_nl b1 h1 _
  have hu : subTagPair 'u' ['_']
      ('<' :: (('u' :: '>' :: (b1 ++ '\n' :: b2)) ++ ['<', '/', 'u', '>']))
      = '<' :: (('u' :: '>' :: (b1 ++ '\n' :: b2)) ++ ['<', '/', 'u', '>']) := by
    rw [subTagPair_cons_openFail ho hf, subTagPair_append_free _ hfree,
      show subTagPair 'u' ['_'] ['<', '/', 'u', '>'] = ['<', '/', 'u', '>'] from by decide]
  have hob : isOpenAt 'b'
      ('<' :: (('u' :: '>' :: (b1 ++ '\n' :: b2)) ++ ['<', '/', 'u', '>'])) = false := by
    simp only [List.cons_append, isOpenAt]
    decide
  have hb : subTagPair 'b' ['*', '*']
      ('<' :: (('u' :: '>' :: (b1 ++ '\n' :: b2)) ++ ['<', '/', 'u', '>']))
      = '<' :: (('u' :: '>' :: (b1 ++ '\n' :: b2)) ++ ['<', '/', 'u', '>']) := by
    rw [subTagPair_cons_noOpen hob, subTagPair_append_free _ hfree,
      show subTagPair 'b' ['*', '*'] ['<', '/', 'u', '>'] = ['<', '/', 'u', '>'] from by decide]
  have hoi : isOpenAt 'i'
      ('<' :: (('u' :: '>' :: (b1 ++ '\n' :: b2)) ++ ['<', '/', 'u', '>'])) = false := by
    simp only [List.cons_append, isOpenAt]
    decide
  have hi : subTagPair 'i' ['*']
      ('<' :: (('u' :: '>' :: (b1 ++ '\n' :: b2)) ++ ['<', '/', 'u', '>']))
      = '<' :: (('u' :: '>' :: (b1 ++ '\n' :: b2)) ++ ['<', '/', 'u', '>']) := by
    rw [subTagPair_cons_noOpen hoi, subTagPair_append_free _ hfree,
      show subTagPair 'i' ['*'] ['<', '/', 'u', '>'] = ['<', '/', 'u', '>'] from by decide]
  have hfc : findClose (('u' :: '>' :: (b1 ++ '\n' :: b2)) ++ ['<', '/', 'u', '>'])
      = some ((b1 ++ '\n' :: b2) ++ ['<', '/', 'u', '>']) := by
    simp [findClose, findCloseAux]
  have hs : stripTags ('<' :: (('u' :: '>' :: (b1 ++ '\n' :: b2)) ++ ['<', '/', 'u', '>']))
      = b1 ++ '\n' :: b2 := by
    rw [stripTags_cons_some hfc, stripTags_append_free _ hbodyfree,
      show stripTags ['<', '/', 'u', '>'] = [] from by decide, List.append_nil]
  rw [hEq]
  unfold clean_extracted_text tagPhase
  rw [if_neg (by simp), hu, hb, hi, hs]

/-- Concrete instance of the amended C2 theorem at body `"a" / "b"`. -/
theorem multiline_pair_not_converted_w :
    clean_extracted_text (('<' :: 'u' :: '>' :: (['a'] ++ '\n' :: ['b'])) ++ ['<', '/', 'u', '>'])
      = lineFix (['a'] ++ '\n' :: ['b']) :=
  multiline_pair_not_converted ['a'] ['b'] (by decide) (by decide)

/-- C2 counterexample: for the input `"<u>a\nb</u>"` — a `<u>…</u>` pair
with a multi-line body — `clean_extracted_text` returns `"a\nb"`: the tags
are deleted and no `_…_` wrapping is produced, so the replacement rule is
not applied to a tag body that spans lines. -/
theorem multiline_pair_cex :
    clean_extracted_text "<u>a\nb</u>".data = "a\nb".data ∧
    '_' ∉ clean_extracted_text "<u>a\nb</u>".data := by decide

/-! ### Per-line indentation accounting -/

/-- The number of leading `' '` characters of a line. -/
def leadSpaces (l : List Char) : Nat := (l.takeWhile (fun c => c == ' ')).length

lemma mem_of_dropWhile {p : Char → Bool} : ∀ {l : List Char} {x : Char},
    x ∈ l.dropWhile p → x ∈ l := by
  intro l
  induction l with
  | nil => intro x h; simp at h
  | cons c rest ih =>
    intro x h
    rw [List.dropWhile_cons] at h
    by_cases hc : p c = true
    · rw [if_pos hc] at h; exact List.mem_cons_of_mem _ (ih h)
    · rw [if_neg hc] at h; exact h

lemma trimLine_subset {l : List Char} {x : Char} (h : x ∈ trimLine l) : x ∈ l := by
  unfold trimLine dropTrailWs at h
  have h1 : x ∈ (l.dropWhile isPyWs).reverse.dropWhile isPyWs := by simpa using h
  have h2 : x ∈ (l.dropWhile isPyWs).reverse := mem_of_dropWhile h1
  exact mem_of_dropWhile (List.mem_reverse.mp h2)

lemma normalizeLine_no_newline {l : List Char} (h : '\n' ∉ l) :
    '\n' ∉ normalizeLine l := by
  simp only [normalizeLine]
  by_cases ht : trimLine l = []
  · rw [if_pos ht]; simp
  · rw [if_neg ht]
    intro hmem
    rcases List.mem_append.mp hmem with hm | hm
    · exact absurd (List.eq_of_mem_replicate hm) (by decide)
    · exact h (trimLine_subset hm)

/-- For non-empty input, the lines of `clean_extracted_text` are exactly
the lines of the tag-processed text, each passed through `normalizeLine`. -/
lemma splitLines_clean {s : List Char} (hs : s ≠ []) :
    splitLines (clean_extracted_text s) = (splitLines (tagPhase s)).map normalizeLine := by
  unfold clean_extracted_text
  rw [if_neg hs]
  unfold lineFix
  refine splitLines_joinLines _ ?_ ?_
  · intro h
    exact splitLines_ne_nil (tagPhase s) (List.map_eq_nil_iff.mp h)
  · intro x hx
    obtain ⟨y, hy, rfl⟩ := List.mem_map.mp hx
    exact normalizeLine_no_newline (splitLines_no_newline _ y hy)

lemma dropWhile_head_false {p : Char → Bool} : ∀ {l : List Char} {c : Char} {t : List Char},
    l.dropWhile p = c :: t → p c = false := by
  intro l
  induction l with
  | nil => intro c t h; simp at h
  | cons a l' ih =>
    intro c t h
    rw [List.dropWhile_cons] at h
    by_cases ha : p a = true
    · rw [if_pos ha] at h; exact ih h
    · rw [if_neg ha] at h
      rw [List.cons.injEq] at h
      rw [← h.1]
      exact Bool.eq_false_iff.mpr ha

lemma trimLine_head_not_ws {l t : List Char} {c : Char} (h : trimLine l = c :: t) :
    isPyWs c = false := by
  have hd : l.dropWhile isPyWs = trimLine l ++
      ((l.dropWhile isPyWs).reverse.takeWhile isPyWs).reverse :=
    dropTrailWs_decomp _
  rw [h, List.cons_append] at hd
  exact dropWhile_head_false hd

lemma takeWhile_sp_replicate_append (k : Nat) (b : List Char) :
    ((List.replicate k ' ' ++ b).takeWhile (fun c => c == ' '))
      = List.replicate k ' ' ++ b.takeWhile (fun c => c == ' ') := by
  induction k with
  | zero => simp
  | succ k ih => simp [List.replicate_succ, List.takeWhile_cons, ih]

lemma leadSpaces_normalizeLine {l : List Char} (h : trimLine l ≠ []) :
    leadSpaces (normalizeLine l) = leadWs l := by
  obtain ⟨c, t, hct⟩ : ∃ c t, trimLine l = c :: t := by
    cases htl : trimLine l with
    | nil => exact absurd htl h
    | cons c t => exact ⟨c, t, rfl⟩
  have hws := trimLine_head_not_ws hct
  have hcne : (c == ' ') = false := by
    refine Bool.eq_false_iff.mpr fun hcp => ?_
    rw [beq_iff_eq] at hcp
    subst hcp
    exact absurd hws (by decide)
  simp only [normalizeLine, if_neg h]
  unfold leadSpaces
  rw [takeWhile_sp_replicate_append, hct, List.takeWhile_cons, hcne]
  simp

/-- C3 (amended): for every non-empty input, the `i`-th output line of
`clean_extracted_text` corresponds to the `i`-th line `L` of the
tag-processed text as follows: if `L` has non-blank content, the output
line is `normalizeLine L` and its number of leading space characters
equals the number of leading whitespace characters of `L`; if `L` is
whitespace-only (blank), the output line is the empty line, so its leading
whitespace is discarded rather than preserved. -/
theorem clean_line_indentation (s : List Char) (hs : s ≠ []) (i : Nat) (L : List Char)
    (hL : (splitLines (tagPhase s))[i]? = some L) :
    (trimLine L ≠ [] →
      (splitLines (clean_extracted_text s))[i]? = some (normalizeLine L) ∧
      leadSpaces (normalizeLine L) = leadWs L) ∧
    (trimLine L = [] → (splitLines (clean_extracted_text s))[i]? = some []) := by
  have hmap := splitLines_clean hs
  constructor
  · intro hne
    constructor
    · rw [hmap, List.getElem?_map, hL, Option.map_some']
    · exact leadSpaces_normalizeLine hne
  · intro hnil
    rw [hmap, List.getElem?_map, hL, Option.map_some']
    simp [normalizeLine, hnil]

/-- Concrete instance of the amended C3 theorem: input `" \ta\n  \t "`,
whose first line has two leading whitespace characters and content `"a"`,
and whose second line is whitespace-only. -/
theorem clean_line_indentation_w :
    ((splitLines (clean_extracted_text " \ta\n  \t ".data))[0]? = some (normalizeLine " \ta".data) ∧
      leadSpaces (normalizeLine " \ta".data) = leadWs " \ta".data) ∧
    (splitLines (clean_extracted_text " \ta\n  \t ".data))[1]? = some [] := by
  constructor
  · exact (clean_line_indentation " \ta\n  \t ".data (by decide) 0 " \ta".data (by decide)).1
      (by decide)
  · exact (clean_line_indentation " \ta\n  \t ".data (by decide) 1 "  \t ".data (by decide)).2
      (by decide)

/-- C3 counterexample: the whitespace-only input `"   "` is a single line
with three leading whitespace characters, but the corresponding output
line of `clean_extracted_text` is empty — it has zero leading spaces — so
the leading-space count of the output line does not always equal the
leading-whitespace count of the input line. -/
theorem clean_line_indentation_cex :
    clean_extracted_text "   ".data = [] ∧
    leadWs "   ".data = 3 ∧ leadSpaces (clean_extracted_text "   ".data) = 0 := by
  decide

/-! ### Idempotence of the normalizer on tag-free text -/

lemma hasTagB_cons_false {c : Char} {l : List Char} (h : hasTagB (c :: l) = false) :
    (decide (c = '<') && (findClose l).isSome) = false ∧ hasTagB l = false := by
  rw [show hasTagB (c :: l) = ((decide (c = '<') && (findClose l).isSome) || hasTagB l) from rfl,
    Bool.or_eq_false_iff] at h
  exact h

lemma subTagPair_id_noTag {t : Char} (ht : t ≠ '>') {w : List Char} :
    ∀ {l : List Char}, hasTagB l = false → subTagPair t w l = l := by
  intro l
  induction l with
  | nil => intro _; rfl
  | cons c rest ih =>
    intro h
    obtain ⟨h1, h2⟩ := hasTagB_cons_false h
    have hopen : isOpenAt t (c :: rest) = false := by
      cases rest with
      | nil => rfl
      | cons c1 rest1 =>
        cases rest1 with
        | nil => rfl
        | cons c2 rest2 =>
          by_cases hc : c = '<'
          · have hfc : (findClose (c1 :: c2 :: rest2)).isSome = false := by
              rwa [decide_eq_true hc, Bool.true_and] at h1
            by_cases hc2 : c2 = '>'
            · by_cases hc1 : c1 = '>'
              · have hlw : ('>' : Char).toLower = '>' := by decide
                simp [isOpenAt, hc1, hlw, Ne.symm ht]
              · exfalso
                have hsome : findClose (c1 :: c2 :: rest2) = some rest2 := by
                  simp [findClose, hc1, findCloseAux, hc2]
                rw [hsome] at hfc
                simp at hfc
            · simp [isOpenAt, hc2]
          · simp [isOpenAt, hc]
    rw [subTagPair_cons_noOpen hopen, ih h2]

lemma stripTags_id_noTag : ∀ {l : List Char}, hasTagB l = false → stripTags l = l := by
  intro l
  induction l with
  | nil => intro _; rfl
  | cons c rest ih =>
    intro h
    obtain ⟨h1, h2⟩ := hasTagB_cons_false h
    by_cases hc : c = '<'
    · have hfc : (findClose rest).isSome = false := by
        rwa [decide_eq_true hc, Bool.true_and] at h1
      have hnone : findClose rest = none := Option.not_isSome_iff_eq_none.mp (by simp [hfc])
      subst hc
      rw [stripTags_cons_none hnone, ih h2]
    · rw [stripTags_cons_ne hc, ih h2]

lemma tagPhase_id_noTag {l : List Char} (h : hasTagB l = false) : tagPhase l = l := by
  unfold tagPhase
  rw [subTagPair_id_noTag (by decide) h, subTagPair_id_noTag (by decide) h,
    subTagPair_id_noTag (by decide) h, stripTags_id_noTag h]

lemma dropWhile_ws_replicate_append (k : Nat) (b : List Char) :
    (List.replicate k ' ' ++ b).dropWhile isPyWs = b.dropWhile isPyWs := by
  induction k with
  | zero => simp
  | succ k ih => simp [List.replicate_succ, List.dropWhile_cons, ih, isPyWs]

lemma takeWhile_ws_replicate_append (k : Nat) (b : List Char) :
    (List.replicate k ' ' ++ b).takeWhile isPyWs = List.replicate k ' ' ++ b.takeWhile isPyWs := by
  induction k with
  | zero => simp
  | succ k ih => simp [List.replicate_succ, List.takeWhile_cons, ih, isPyWs]

lemma dropWhile_of_head_false {p : Char → Bool} {c : Char} {t : List Char}
    (h : p c = false) : (c :: t).dropWhile p = c :: t := by
  rw [List.dropWhile_cons, if_neg (by simp [h])]

lemma trimLine_reverse (l : List Char) :
    (trimLine l).reverse = ((l.dropWhile isPyWs).reverse).dropWhile isPyWs := by
  unfold trimLine dropTrailWs
  rw [List.reverse_reverse]

/-- On the non-blank case, `normalizeLine` output strips back to the
original stripped content. -/
lemma dropTrailWs_trimLine (l : List Char) : dropTrailWs (trimLine l) = trimLine l := by
  have hidem : (trimLine l).reverse.dropWhile isPyWs = (trimLine l).reverse := by
    rw [trimLine_reverse]
    cases hdw : ((l.dropWhile isPyWs).reverse).dropWhile isPyWs with
    | nil => rfl
    | cons d dt => exact dropWhile_of_head_false (dropWhile_head_false hdw)
  unfold dropTrailWs
  rw [hidem, List.reverse_reverse]

lemma trimLine_normalizeLine (l : List Char) :
    trimLine (normalizeLine l) = trimLine l := by
  by_cases h : trimLine l = []
  · have hnl : normalizeLine l = [] := by simp [normalizeLine, h]
    rw [hnl, h]
    rfl
  · obtain ⟨c, t, hct⟩ : ∃ c t, trimLine l = c :: t := by
      cases htl : trimLine l with
      | nil => exact absurd htl h
      | cons c t => exact ⟨c, t, rfl⟩
    have hhead := trimLine_head_not_ws hct
    simp only [normalizeLine, if_neg h]
    rw [show trimLine (List.replicate (leadWs l) ' ' ++ trimLine l)
        = dropTrailWs ((List.replicate (leadWs l) ' ' ++ trimLine l).dropWhile isPyWs) from rfl]
    rw [dropWhile_ws_replicate_append, hct, dropWhile_of_head_false hhead, ← hct]
    exact dropTrailWs_trimLine l

lemma leadWs_normalizeLine {l : List Char} (h : trimLine l ≠ []) :
    leadWs (normalizeLine l) = leadWs l := by
  obtain ⟨c, t, hct⟩ : ∃ c t, trimLine l = c :: t := by
    cases htl : trimLine l with
    | nil => exact absurd htl h
    | cons c t => exact ⟨c, t, rfl⟩
  have hhead := trimLine_head_not_ws hct
  simp only [normalizeLine, if_neg h]
  unfold leadWs
  rw [takeWhile_ws_replicate_append, hct, List.takeWhile_cons, if_neg (by simp [hhead])]
  simp

lemma normalizeLine_idem (l : List Char) :
    normalizeLine (normalizeLine l) = normalizeLine l := by
  by_cases h : trimLine l = []
  · have hnl : normalizeLine l = [] := by simp [normalizeLine, h]
    rw [hnl]
    decide
  · have htm := trimLine_normalizeLine l
    have hlw := leadWs_normalizeLine h
    rw [show normalizeLine (normalizeLine l)
        = if trimLine (normalizeLine l) = [] then []
          else List.replicate (leadWs (normalizeLine l)) ' ' ++ trimLine (normalizeLine l) from rfl]
    rw [htm, hlw, if_neg h]
    simp [normalizeLine, h]

lemma splitLines_lineFix (l : List Char) :
    splitLines (lineFix l) = (splitLines l).map normalizeLine := by
  unfold lineFix
  refine splitLines_joinLines _ ?_ ?_
  · intro h
    exact splitLines_ne_nil l (List.map_eq_nil_iff.mp h)
  · intro x hx
    obtain ⟨y, hy, rfl⟩ := List.mem_map.mp hx
    exact normalizeLine_no_newline (splitLines_no_newline _ y hy)

lemma lineFix_idem (l : List Char) : lineFix (lineFix l) = lineFix l := by
  conv_lhs => rw [lineFix, splitLines_lineFix, List.map_map]
  have hmap : (splitLines l).map (normalizeLine ∘ normalizeLine)
      = (splitLines l).map normalizeLine := by
    apply List.map_congr_left
    intro x _
    exact normalizeLine_idem x
  rw [hmap]
  rfl

/-- C4 (confirmed): on a non-empty input containing no HTML-like tag, the
Markup Normalizer is idempotent:
`clean_extracted_text (clean_extracted_text s) = clean_extracted_text s`. -/
theorem clean_extracted_text_idem (s : List Char) (hs : s ≠ [])
    (ht : hasTagB s = false) :
    clean_extracted_text (clean_extracted_text s) = clean_extracted_text s := by
  have h1 : clean_extracted_text s = lineFix s := by
    unfold clean_extracted_text
    rw [if_neg hs, tagPhase_id_noTag ht]
  rw [h1]
  by_cases h2 : lineFix s = []
  · rw [h2]; rfl
  · have h3 : hasTagB (lineFix s) = false := lineFix_noTag ht
    unfold clean_extracted_text
    rw [if_neg h2, tagPhase_id_noTag h3, lineFix_idem]

/-- Concrete instance of the idempotence theorem on the tag-free input
`"  A  b \n\tx"`. -/
theorem clean_extracted_text_idem_w :
    clean_extracted_text (clean_extracted_text "  A  b \n\tx".data)
      = clean_extracted_text "  A  b \n\tx".data :=
  clean_extracted_text_idem "  A  b \n\tx".data (by decide) (by decide)

/-! ### Prompt Builder (`create_prompt`, app.py lines 757–791) -/

def basePromptLegal : List Char :=
  "You are an expert at extracting text from legal and official documents. Extract ALL text with perfect accuracy, maintaining exact formatting, numbering systems, indentation, and legal document structure. Pay special attention to section numbers, subsections, clauses, and hierarchical organization.".data

def basePromptHand : List Char :=
  "You are an expert at reading handwritten text. Extract ALL text from this handwritten image with high accuracy. Pay special attention to cursive writing, connected letters, and personal writing styles.".data

def basePromptMixed : List Char :=
  "Extract all text from this image, which may contain both handwritten and printed text.".data

def basePromptScan : List Char :=
  "Extract all text from this document image, maintaining the exact structure and layout.".data

def basePromptCreative : List Char :=
  "Extract text from this image, which may contain artistic, stylized, or decorative text.".data

/-- The `if/elif` chain selecting the base sentence from the OCR mode. -/
def basePrompt (ocr_mode : String) : List Char :=
  if ocr_mode = "Legal/Official Document" then basePromptLegal
  else if ocr_mode = "Handwriting Focus" then basePromptHand
  else if ocr_mode = "Mixed Text" then basePromptMixed
  else if ocr_mode = "Document Scan" then basePromptScan
  else basePromptCreative

def fmtRules : List Char :=
  " CRITICAL FORMATTING RULES:\n- Preserve ALL numbering exactly: (6), (7), (8), etc.\n- Use proper indentation with spaces (not tabs)\n- For underlined text: Use CAPITAL LETTERS or add underscores like _HEADING_\n- DO NOT use HTML tags like <u>, <b>, or similar\n- Maintain exact spacing and line breaks as shown\n- Keep the same paragraph indentation levels\n- Preserve all punctuation and special characters exactly\n- Use plain text formatting only - no markup tags\n- For emphasized text, use CAPITALS or _underscores_\n- Maintain the visual hierarchy with proper spacing between sections".data

def basicFmt : List Char :=
  " Preserve basic paragraph structure and line breaks.".data

def closingRules : List Char :=
  "\n\nProvide ONLY the extracted text in plain text format. NO HTML tags, NO markup. Use spaces for indentation and underscores or CAPITALS for emphasis.".data

/-- The f-string " Translate the extracted text to " plus the language and a
full stop, appended only
when the target language is not "Same as original". -/
def translateClause (target_language : String) : List Char :=
  if target_language = "Same as original" then []
  else " Translate the extracted text to ".data ++ target_language.data ++ ".".data

/-- The function `create_prompt` (app.py lines 757–791).  The source reads `ocr_mode`,
`target_language` and `preserve_formatting` from the enclosing scope; they
are the only inputs, passed here as parameters. -/
def create_prompt (ocr_mode target_language : String) (preserve_formatting : Bool) : List Char :=
  basePrompt ocr_mode ++ translateClause target_language ++
    (if preserve_formatting then fmtRules else basicFmt) ++ closingRules

/-- Whether `p` is a prefix of `s`. -/
def hasPrefixL : List Char → List Char → Bool
  | [], _ => true
  | _ :: _, [] => false
  | p :: ps, s :: ss => p = s && hasPrefixL ps ss

/-- Python's `p in s` substring test. -/
def containsSub (p : List Char) : List Char → Bool
  | [] => p.isEmpty
  | c :: rest => hasPrefixL p (c :: rest) || containsSub p rest

lemma hasPrefixL_iff : ∀ {p s : List Char}, hasPrefixL p s = true ↔ ∃ q, s = p ++ q := by
  intro p
  induction p with
  | nil => intro s; simp [hasPrefixL]
  | cons c ps ih =>
    intro s
    cases s with
    | nil =>
      simp only [hasPrefixL]
      constructor
      · intro h; cases h
      · rintro ⟨q, hq⟩; cases hq
    | cons a ss =>
      simp only [hasPrefixL, Bool.and_eq_true, decide_eq_true_eq]
      rw [ih]
      constructor
      · rintro ⟨rfl, q, rfl⟩
        exact ⟨q, rfl⟩
      · rintro ⟨q, hq⟩
        rw [List.cons_append, List.cons.injEq] at hq
        exact ⟨hq.1.symm, q, hq.2⟩

lemma containsSub_iff : ∀ {p s : List Char},
    containsSub p s = true ↔ ∃ a b, s = a ++ p ++ b := by
  intro p s
  induction s with
  | nil =>
    simp only [containsSub, List.isEmpty_iff]
    constructor
    · rintro rfl; exact ⟨[], [], rfl⟩
    · rintro ⟨a, b, hab⟩
      rcases List.append_eq_nil.mp hab.symm with ⟨h1, h2⟩
      exact (List.append_eq_nil.mp h1).2
  | cons c rest ih =>
    simp only [containsSub, Bool.or_eq_true]
    rw [ih, hasPrefixL_iff]
    constructor
    · rintro (⟨q, hq⟩ | ⟨a, b, hab⟩)
      · exact ⟨[], q, by simp [hq]⟩
      · exact ⟨c :: a, b, by simp [hab]⟩
    · rintro ⟨a, b, hab⟩
      cases a with
      | nil =>
        left
        exact ⟨b, by simpa using hab⟩
      | cons a0 a' =>
        right
        rw [List.cons_append, List.cons_append, List.cons.injEq] at hab
        exact ⟨a', b, hab.2⟩

lemma containsSub_of_parts {p a b s : List Char} (h : s = a ++ p ++ b) :
    containsSub p s = true :=
  containsSub_iff.mpr ⟨a, b, h⟩

lemma containsSub_mono {q p s : List Char} (hq : hasPrefixL q p = true)
    (h : containsSub p s = true) : containsSub q s = true := by
  obtain ⟨q', rfl⟩ := hasPrefixL_iff.mp hq
  obtain ⟨a, b, rfl⟩ := containsSub_iff.mp h
  exact containsSub_of_parts (p := q) (a := a) (b := q' ++ b) (by simp)

lemma prompt_base_cases (m : String) :
    basePrompt m = basePromptLegal ∨ basePrompt m = basePromptHand ∨
    basePrompt m = basePromptMixed ∨ basePrompt m = basePromptScan ∨
    basePrompt m = basePromptCreative := by
  unfold basePrompt
  by_cases h1 : m = "Legal/Official Document"
  · rw [if_pos h1]; exact Or.inl rfl
  rw [if_neg h1]
  by_cases h2 : m = "Handwriting Focus"
  · rw [if_pos h2]; exact Or.inr (Or.inl rfl)
  rw [if_neg h2]
  by_cases h3 : m = "Mixed Text"
  · rw [if_pos h3]; exact Or.inr (Or.inr (Or.inl rfl))
  rw [if_neg h3]
  by_cases h4 : m = "Document Scan"
  · rw [if_pos h4]; exact Or.inr (Or.inr (Or.inr (Or.inl rfl)))
  rw [if_neg h4]
  exact Or.inr (Or.inr (Or.inr (Or.inr rfl)))

set_option maxRecDepth 40000 in
lemma prompt_same_no_translate (mode : String) (pf : Bool) :
    containsSub "Translate".data (create_prompt mode "Same as original" pf) = false := by
  unfold create_prompt
  rw [show translateClause "Same as original" = [] from rfl]
  rcases prompt_base_cases mode with h | h | h | h | h <;> rw [h] <;> cases pf <;> decide

/-- C5 (confirmed): for every OCR mode and formatting toggle, the prompt
contains the substring `"Translate the extracted text to L."` for the
selected target language `L` if and only if `L` is not
`"Same as original"`; with `"French"` it contains
`"Translate the extracted text to French."`, and with
`"Same as original"` the prompt contains no occurrence of `"Translate"`. -/
theorem prompt_translate_iff (mode lang : String) (pf : Bool) :
    (containsSub ("Translate the extracted text to ".data ++ lang.data ++ ".".data)
        (create_prompt mode lang pf) = true ↔ lang ≠ "Same as original") ∧
    containsSub "Translate the extracted text to French.".data
        (create_prompt mode "French" pf) = true ∧
    containsSub "Translate".data (create_prompt mode "Same as original" pf) = false := by
  have hcontains : ∀ l : String, l ≠ "Same as original" →
      containsSub ("Translate the extracted text to ".data ++ l.data ++ ".".data)
        (create_prompt mode l pf) = true := by
    intro l hl
    refine containsSub_of_parts (a := basePrompt mode ++ [' '])
      (b := (if pf then fmtRules else basicFmt) ++ closingRules) ?_
    unfold create_prompt translateClause
    rw [if_neg hl]
    rw [show " Translate the extracted text to ".data
        = ' ' :: "Translate the extracted text to ".data from by decide]
    simp
  refine ⟨⟨fun hc => ?_, hcontains lang⟩, ?_, prompt_same_no_translate mode pf⟩
  · intro hl
    subst hl
    have : containsSub "Translate".data (create_prompt mode "Same as original" pf) = true :=
      containsSub_mono (by decide) hc
    rw [prompt_same_no_translate mode pf] at this
    cases this
  · have := hcontains "French" (by decide)
    rwa [show "Translate the extracted text to ".data ++ "French".data ++ ".".data
        = "Translate the extracted text to French.".data from by decide] at this

/-- The target-language options offered by the application's language
selector (app.py lines 663–666). -/
def uiLanguages : List String :=
  ["Same as original", "English", "Spanish", "French", "German", "Italian",
   "Portuguese", "Russian", "Chinese", "Japanese", "Korean",
   "Arabic", "Hindi", "Dutch", "Swedish", "Norwegian"]

set_option maxRecDepth 100000 in
/-- C6 (amended): `create_prompt` takes no `fix_grammar` or
`include_confidence` inputs at all — its only inputs are the OCR mode, the
target language and the `preserve_formatting` toggle — and for every mode,
every toggle setting and every target language offered by the UI, the
produced prompt contains neither a grammar-correction directive (no
occurrence of `"grammar"`) nor an uncertainty-marking directive (no
occurrence of `"[?]"`). -/
theorem prompt_no_grammar_or_confidence (mode lang : String) (pf : Bool)
    (hl : lang ∈ uiLanguages) :
    containsSub "grammar".data (create_prompt mode lang pf) = false ∧
    containsSub "[?]".data (create_prompt mode lang pf) = false := by
  unfold create_prompt
  rcases prompt_base_cases mode with h | h | h | h | h <;> rw [h] <;>
    cases pf <;> fin_cases hl <;> exact (by decide)

/-- Concrete instance of the amended C6 theorem. -/
theorem prompt_no_grammar_or_confidence_w :
    containsSub "grammar".data (create_prompt "Legal/Official Document" "French" true) = false ∧
    containsSub "[?]".data (create_prompt "Legal/Official Document" "French" true) = false :=
  prompt_no_grammar_or_confidence "Legal/Official Document" "French" true (by decide)

set_option maxRecDepth 100000 in
/-- C6 counterexample: with any toggle configuration — here the legal mode
with formatting preservation enabled — the prompt produced by
`create_prompt` contains no grammar-correction directive and no `[?]`
uncertainty convention; the Prompt Builder has no `fix_grammar` or
`include_confidence` inputs whose activation could add them. -/
theorem prompt_no_grammar_cex :
    containsSub "grammar".data (create_prompt "Legal/Official Document" "English" true) = false ∧
    containsSub "[?]".data (create_prompt "Legal/Official Document" "English" true) = false ∧
    containsSub "grammar".data (create_prompt "Handwriting Focus" "Same as original" false) = false ∧
    containsSub "[?]".data (create_prompt "Handwriting Focus" "Same as original" false) = false := by
  decide

/-! ### Document Assembler (`create_formatted_document`, app.py lines 466–601)

Only the textual content of the generated document is modelled: paragraphs
with their style, runs and bold flag, page breaks and embedded-image
positions.  Page geometry, fonts, the three custom style definitions and
the page-number footer field carry no text content relevant to the claims
and are not modelled. -/

/-- A run of text inside a paragraph, with its bold flag. -/
structure DocRun where
  text : List Char
  bold : Bool
deriving DecidableEq

/-- One content block of the generated document. -/
inductive DocBlock where
  | titlePara (text : List Char)
  | heading (text : List Char)
  | bodyPara (runs : List DocRun)
  | pageBreak
  | imagePara (idx : Nat)
deriving DecidableEq

/-- Python `str.isupper` restricted to ASCII: at least one upper-case
letter and no lower-case letter. -/
def isUpperPy (l : List Char) : Bool :=
  l.any (fun c => c.isUpper) && l.all (fun c => !(c.isLower))

/-- One line of extracted text under `preserve_original_formatting`
(app.py lines 577–592): a non-blank line whose stripped content is
entirely upper-case and under 100 characters becomes a single bold run;
a line beginning with four spaces or a tab becomes a plain run with the
full line text; every other non-blank line becomes a plain run with the
full line text; a blank line becomes an empty Body paragraph. -/
def lineToBlock (para_text : List Char) : DocBlock :=
  if trimLine para_text ≠ [] then
    if isUpperPy (trimLine para_text) = true ∧ (trimLine para_text).length < 100 then
      DocBlock.bodyPara [⟨para_text, true⟩]
    else if (hasPrefixL "    ".data para_text || hasPrefixL "\t".data para_text) = true then
      DocBlock.bodyPara [⟨para_text, false⟩]
    else
      DocBlock.bodyPara [⟨para_text, false⟩]
  else DocBlock.bodyPara []

/-- The per-line rendering that the default branch alone would produce,
with the explicit indented-line branch omitted (written from the claim's
wording, to be compared with `lineToBlock`). -/
def lineToBlockNoIndentBranch (para_text : List Char) : DocBlock :=
  if trimLine para_text ≠ [] then
    if isUpperPy (trimLine para_text) = true ∧ (trimLine para_text).length < 100 then
      DocBlock.bodyPara [⟨para_text, true⟩]
    else DocBlock.bodyPara [⟨para_text, false⟩]
  else DocBlock.bodyPara []

/-- The text-insertion step for one item (app.py lines 574–595): with
`preserve_original_formatting` and non-empty text, each line is rendered
by `lineToBlock`; otherwise the whole text is one Body paragraph. -/
def addTextBlocks (preserve : Bool) (text : List Char) : List DocBlock :=
  if preserve = true ∧ text ≠ [] then (splitLines text).map lineToBlock
  else [DocBlock.bodyPara (if text = [] then [] else [⟨text, false⟩])]

/-- Heading line `f"Image {idx + 1}: {image_names[idx]}"`. -/
def headingText (idx : Nat) (name : List Char) : List Char :=
  "Image ".data ++ (Nat.repr (idx + 1)).data ++ ": ".data ++ name

/-- Image embedding for one item (app.py lines 559–571): an image is added
only when requested and when the session still holds an image at this
index; the success path adds the centered picture paragraph and a blank
Body line. -/
def imageBlocks (include_images : Bool) (numImages idx : Nat) : List DocBlock :=
  if include_images = true ∧ idx < numImages then
    [DocBlock.imagePara idx, DocBlock.bodyPara []]
  else []

/-- All blocks generated for the item at position `idx` (app.py lines
551–599). -/
def itemBlocks (separate_pages include_images preserve : Bool)
    (numImages numTexts idx : Nat) (text name : List Char) : List DocBlock :=
  (if separate_pages = true ∧ 0 < idx then [DocBlock.pageBreak] else []) ++
    DocBlock.heading (headingText idx name) ::
      (imageBlocks include_images numImages idx ++
        addTextBlocks preserve text ++
        (if idx < numTexts - 1 then [DocBlock.bodyPara []] else []))

/-- The document header (app.py lines 540–548): title plus four metadata
lines and a blank line. -/
def headerBlocks (doc_name lang mode now : List Char) : List DocBlock :=
  [DocBlock.titlePara "Gemini Vision OCR - Multi-Image".data,
   DocBlock.bodyPara [⟨"Document: ".data ++ doc_name, false⟩],
   DocBlock.bodyPara [⟨"Extraction Date: ".data ++ now, false⟩],
   DocBlock.bodyPara [⟨"Language: ".data ++ lang, false⟩],
   DocBlock.bodyPara [⟨"OCR Mode: ".data ++ mode, false⟩],
   DocBlock.bodyPara []]

/-- Python `enumerate`, with a starting index. -/
def enumFromL (n : Nat) : List (List Char) → List (Nat × List Char)
  | [] => []
  | t :: ts => (n, t) :: enumFromL (n + 1) ts

/-- The `for idx, text in enumerate(extracted_texts)` loop body sequence:
each iteration looks up `image_names[idx]` — an `IndexError` aborts the
whole build — and otherwise contributes its item's blocks. -/
def buildItems (separate_pages include_images preserve : Bool)
    (numImages numTexts : Nat) (image_names : List (List Char)) :
    List (Nat × List Char) → Except String (List DocBlock)
  | [] => Except.ok []
  | (idx, text) :: rest =>
    match image_names[idx]? with
    | none => Except.error "IndexError: list index out of range"
    | some name =>
      match buildItems separate_pages include_images preserve numImages numTexts
          image_names rest with
      | Except.error e => Except.error e
      | Except.ok bs =>
        Except.ok (itemBlocks separate_pages include_images preserve numImages numTexts
          idx text name ++ bs)

/-- Whether an `Except` computation succeeded. -/
def isOkE {ε α : Type} : Except ε α → Bool
  | Except.ok _ => true
  | Except.error _ => false

/-- The Document Assembler `create_formatted_document` (app.py lines
466–601), as the sequence of content blocks it generates, or the
`IndexError` it raises.  `now` stands for `datetime.now()`;
`numSessionImages` is `len(st.session_state.processed_images)`. -/
def create_formatted_document (doc_name : List Char)
    (extracted_texts image_names : List (List Char))
    (lang mode now : List Char)
    (separate_pages include_images preserve : Bool)
    (numSessionImages : Nat) : Except String (List DocBlock) :=
  match buildItems separate_pages include_images preserve numSessionImages
      extracted_texts.length image_names (enumFromL 0 extracted_texts) with
  | Except.error e => Except.error e
  | Except.ok bs => Except.ok (headerBlocks doc_name lang mode now ++ bs)

lemma buildItems_isOk (sp ii pv : Bool) (ni nt : Nat) (names : List (List Char)) :
    ∀ (ts : List (List Char)) (n : Nat),
    isOkE (buildItems sp ii pv ni nt names (enumFromL n ts)) = true ↔
      (ts = [] ∨ n + ts.length ≤ names.length) := by
  intro ts
  induction ts with
  | nil =>
    intro n
    simp [enumFromL, buildItems, isOkE]
  | cons t ts' ih =>
    intro n
    simp only [enumFromL, buildItems]
    cases hname : names[n]? with
    | none =>
      have hlen : names.length ≤ n := by
        simpa using hname
      simp only [isOkE]
      constructor
      · intro h; cases h
      · rintro (h | h)
        · cases h
        · simp only [List.length_cons] at h
          omega
    | some name =>
      have hlt : n < names.length := by
        by_contra hge
        rw [List.getElem?_eq_none (by omega)] at hname
        cases hname
      have hok : isOkE (match buildItems sp ii pv ni nt names (enumFromL (n + 1) ts') with
          | Except.error e => Except.error e
          | Except.ok bs => Except.ok (itemBlocks sp ii pv ni nt n t name ++ bs)) =
          isOkE (buildItems sp ii pv ni nt names (enumFromL (n + 1) ts')) := by
        cases buildItems sp ii pv ni nt names (enumFromL (n + 1) ts') <;> rfl
      rw [hok, ih (n + 1)]
      simp only [List.length_cons]
      constructor
      · rintro (rfl | h)
        · right; simpa using hlt
        · right; omega
      · rintro (h | h)
        · cases h
        · right; omega

/-- C7 (amended): the Document Assembler signals an `IndexError` if and
only if there are more extracted texts than image names; whenever
`extracted_texts.length ≤ image_names.length` — including the case of
strictly fewer texts than names, where the item counts differ — it
produces a document artifact, silently ignoring the extra names. -/
theorem assembler_mismatch_behaviour (doc_name : List Char)
    (extracted_texts image_names : List (List Char)) (lang mode now : List Char)
    (separate_pages include_images preserve : Bool) (numSessionImages : Nat) :
    isOkE (create_formatted_document doc_name extracted_texts image_names lang mode now
        separate_pages include_images preserve numSessionImages) = true ↔
      extracted_texts.length ≤ image_names.length := by
  unfold create_formatted_document
  have h := buildItems_isOk separate_pages include_images preserve numSessionImages
    extracted_texts.length image_names extracted_texts 0
  cases hb : buildItems separate_pages include_images preserve numSessionImages
      extracted_texts.length image_names (enumFromL 0 extracted_texts) with
  | error e =>
    rw [hb] at h
    simp only [isOkE] at h ⊢
    constructor
    · intro hf; cases hf
    · intro hle
      rcases (h.mpr (Or.inr (by omega))) with h'
      cases h'
  | ok bs =>
    rw [hb] at h
    simp only [isOkE] at h ⊢
    constructor
    · intro _
      rcases h.mp trivial with h' | h'
      · subst h'; simp
      · omega
    · intro _; trivial

/-- C7 counterexample: with zero extracted texts and one image name the
counts differ, yet the assembler does not fail — it returns a document
consisting of the header alone. -/
theorem assembler_mismatch_cex :
    ([] : List (List Char)).length ≠ ["a.png".data].length ∧
    isOkE (create_formatted_document "Doc".data [] ["a.png".data] "English".data
      "Mixed Text".data "2025-01-01".data true true true 0) = true := by decide

/-- C8 (confirmed): under `preserve_original_formatting`, for every
non-empty item text each line is rendered as follows — a line whose
stripped content is non-blank, entirely upper-case and under 100
characters becomes a single bold run; a blank line becomes an empty Body
paragraph; every other non-blank line becomes a single plain (non-bold)
run carrying the full line text. -/
theorem preserve_line_rendering (text : List Char) (ht : text ≠ []) :
    addTextBlocks true text = (splitLines text).map (fun l =>
      if trimLine l = [] then DocBlock.bodyPara []
      else if isUpperPy (trimLine l) = true ∧ (trimLine l).length < 100 then
        DocBlock.bodyPara [⟨l, true⟩]
      else DocBlock.bodyPara [⟨l, false⟩]) := by
  unfold addTextBlocks
  rw [if_pos ⟨rfl, ht⟩]
  apply List.map_congr_left
  intro l _
  unfold lineToBlock
  by_cases h1 : trimLine l = []
  · simp [h1]
  · by_cases h2 : isUpperPy (trimLine l) = true ∧ (trimLine l).length < 100
    · simp [h1, h2]
    · by_cases h3 : (hasPrefixL "    ".data l || hasPrefixL "\t".data l) = true
      · simp [h1, h2, h3]
      · simp [h1, h2, h3]

/-- Concrete instance of the per-line rendering theorem: an upper-case
heading line, a blank line and an indented plain line. -/
theorem preserve_line_rendering_w :
    addTextBlocks true "TITLE\n\n    body".data = (splitLines "TITLE\n\n    body".data).map (fun l =>
      if trimLine l = [] then DocBlock.bodyPara []
      else if isUpperPy (trimLine l) = true ∧ (trimLine l).length < 100 then
        DocBlock.bodyPara [⟨l, true⟩]
      else DocBlock.bodyPara [⟨l, false⟩]) :=
  preserve_line_rendering "TITLE\n\n    body".data (by decide)

/-- C10 (confirmed): the branch of the per-line rendering that detects a
line beginning with four spaces or a tab produces exactly the same
paragraph — same style, same single non-bold run carrying the full line
text — as the default branch, so the assembled document does not depend on
whether a non-blank, non-upper-case line begins with leading whitespace
or not. -/
theorem indent_branch_equals_default :
    ∀ l : List Char, lineToBlock l = lineToBlockNoIndentBranch l := by
  intro l
  unfold lineToBlock lineToBlockNoIndentBranch
  by_cases h1 : trimLine l ≠ []
  · rw [if_pos h1, if_pos h1]
    by_cases h2 : isUpperPy (trimLine l) = true ∧ (trimLine l).length < 100
    · rw [if_pos h2, if_pos h2]
    · rw [if_neg h2, if_neg h2]
      by_cases h3 : (hasPrefixL "    ".data l || hasPrefixL "\t".data l) = true
      · rw [if_pos h3]
      · rw [if_neg h3]
  · rw [if_neg h1, if_neg h1]

/-! ### Document Store Gateway (`delete_document`, app.py lines 155–169) -/

/-- A row of the `documents` table (app.py setup SQL, lines 283–292). -/
structure DocRecord where
  id : Nat
  user_id : Nat
  doc_name : List Char
  extracted_texts : List Char
  image_names : List Char
  processing_settings : List Char
  created_at : List Char
deriving DecidableEq

/-- The gateway operation `delete_document(user_id, doc_id)` (app.py lines
155–169).  Modelled from the spec: the backing table store is external to
the repository, so the effect of
`table('documents').delete().eq('id', doc_id).eq('user_id', user_id)` is
modelled as the relational delete of exactly the rows matching both
equality filters, with the returned data listing the deleted rows; the
function then reports whether that list is non-empty. -/
def delete_document (store : List DocRecord) (user_id doc_id : Nat) :
    List DocRecord × Bool :=
  let deleted := store.filter (fun r => decide (r.id = doc_id ∧ r.user_id = user_id))
  (store.filter (fun r => !(decide (r.id = doc_id ∧ r.user_id = user_id))),
   decide (0 < deleted.length))

/-- C9 (confirmed): deleting a document whose record belongs to a
different owner leaves every record in the store unchanged and returns a
non-success result, without raising an error: the delete is scoped to the
owning user.  (`huniq` captures that `id` is the table's primary key, so
every row carrying this id belongs to owner `Z`.) -/
theorem delete_scoped_to_owner (store : List DocRecord) (X Y Z : Nat) (r : DocRecord)
    (_hr : r ∈ store) (_hid : r.id = Y) (_hown : r.user_id = Z) (hne : Z ≠ X)
    (huniq : ∀ r' ∈ store, r'.id = Y → r'.user_id = Z) :
    delete_document store X Y = (store, false) := by
  unfold delete_document
  have hkeepall : ∀ r' ∈ store, ¬ (r'.id = Y ∧ r'.user_id = X) := by
    rintro r' hr' ⟨h1, h2⟩
    exact hne ((huniq r' hr' h1).symm.trans h2)
  have hfilter : store.filter (fun r' => !(decide (r'.id = Y ∧ r'.user_id = X))) = store := by
    rw [List.filter_eq_self]
    intro a ha
    simp [hkeepall a ha]
  have hnone : store.filter (fun r' => decide (r'.id = Y ∧ r'.user_id = X)) = [] := by
    rw [List.filter_eq_nil_iff]
    intro a ha
    simp [hkeepall a ha]
  rw [hfilter, hnone]
  rfl

/-- Concrete instance of the owner-scoped delete theorem: a one-record
store owned by user 2, deletion attempted by user 1. -/
theorem delete_scoped_to_owner_w :
    delete_document [⟨5, 2, "d".data, "t".data, "n".data, "s".data, "c".data⟩] 1 5
      = ([⟨5, 2, "d".data, "t".data, "n".data, "s".data, "c".data⟩], false) :=
  delete_scoped_to_owner _ 1 5 2 ⟨5, 2, "d".data, "t".data, "n".data, "s".data, "c".data⟩
    (by decide) rfl rfl (by decide) (by decide)
